import Mathlib

/-!
The websocket relay of react-chat, `backend/index.js`.

A shallow embedding of the registry `wsClients` and of the three pieces of code that
touch it: `broadcast` / `broadcastParticipants`, the `close` listener and the `message`
listener installed by `app.ws('/chat', ...)`.

Modelling decisions
* A websocket object is known to the program only by identity (`c.ws === clientWs`);
  it is a number here.
* `JSON.parse(msg)` is library code; a `message` event carries its outcome: `none` when it
  throws, `some data` otherwise.
* Values stored in properties are primitives or references to nested objects / arrays.
  The program never looks inside nested values; it only compares them with `===` and
  tests them with `!!`, so a nested object is an address. On this representation `===`
  is equality (JSON text cannot denote `NaN`, and `-0 === 0`).
* `Date.now()` is read twice by a handler that broadcasts twice; the two readings are
  arguments `t1 t2`.
* `ws.send(JSON.stringify(msg))` is the observable effect `Effect.send ws msg`: the
  serialiser is left symbolic and the effect carries the event object (what the
  serialiser does with it, such as leaving out a property whose value is `undefined`, is
  outside the model, and so is what the socket does with a frame once `send` is called).
* Strings are compared for equality and tested for emptiness only; they are Lean strings.
* `console.log` is not modelled.
-/

namespace ReactChat

/-! ## Values -/

/-- Identity of a websocket object. -/
abbrev Conn := Nat

/-- A JavaScript value as it occurs in a property of a parsed payload or in the `username`
slot of a registry entry. `undefined` is what reading an absent property yields. `infinity`
is what an overflowing number literal such as `1e999` parses to. -/
inductive JsVal where
  | undefined
  | null
  | bool (b : Bool)
  | num (x : ℚ)
  | infinity (negative : Bool)
  | str (s : String)
  | ref (addr : Nat)
  deriving DecidableEq, Repr

/-- The coercion `!!v`. -/
def JsVal.truthy : JsVal → Bool
  | .undefined => false
  | .null => false
  | .bool b => b
  | .num x => decide (x ≠ 0)
  | .infinity _ => true
  | .str s => decide (s ≠ "")
  | .ref _ => true

/-- The result of a successful `JSON.parse(msg)`. An object is the list of its own
properties in enumeration order (keys pairwise distinct in anything the parser returns). -/
inductive Payload where
  | null
  | bool (b : Bool)
  | num (x : ℚ)
  | infinity (negative : Bool)
  | str (s : String)
  | arr (items : List JsVal)
  | obj (props : List (String × JsVal))
  deriving DecidableEq, Repr

/-- Property read on a property list: the stored value, `undefined` when the key is absent. -/
def getProp (key : String) (props : List (String × JsVal)) : JsVal :=
  match props.lookup key with
  | some v => v
  | none => JsVal.undefined

/-- The reads `data.type` and `data.author` (the only two the handler performs).
Reading a property of `null` throws a TypeError (`none`); booleans, numbers, strings and
arrays have no property of either name. -/
def Payload.prop (data : Payload) (key : String) : Option JsVal :=
  match data with
  | .null => none
  | .obj props => some (getProp key props)
  | _ => some JsVal.undefined

/-- Index keys `"0"`, `"1"`, ... paired with the elements. -/
def indexed (xs : List JsVal) : List (String × JsVal) :=
  (List.zip (List.range xs.length) xs).map (fun p => (toString p.1, p.2))

/-- Own enumerable properties copied by the spread `...data`: those of an object, the
indexed elements of an array, the indexed characters of a string, none for the other
primitives. (A character outside the basic plane is kept whole here, where JavaScript
would split it into two code units.) -/
def ownProps : Payload → List (String × JsVal)
  | .obj props => props
  | .arr items => indexed items
  | .str s => indexed (s.toList.map (fun ch => JsVal.str (String.singleton ch)))
  | _ => []

/-- Whether a property list has the key. -/
def hasKey {β : Type} (key : String) (props : List (String × β)) : Bool :=
  props.any (fun kv => decide (kv.1 = key))

/-- Assignment to one property: the slot named `key` takes the value `v`. -/
def overwrite {β : Type} (key : String) (v : β) (kv : String × β) : String × β :=
  if kv.1 = key then (key, v) else kv

/-- Object literal tail `{ ...props, key: v }`: an existing `key` keeps its position and
takes the new value, an absent one is added at the end. -/
def setProp {β : Type} (key : String) (v : β) (props : List (String × β)) : List (String × β) :=
  if hasKey key props then props.map (overwrite key v) else props ++ [(key, v)]

/-- Value of a property of an outbound event: a plain value, or the array that
`map(...).filter(...)` builds for the participants list. -/
inductive Field where
  | val (v : JsVal)
  | list (vs : List JsVal)
  deriving DecidableEq, Repr

/-- An outbound event object, handed to `JSON.stringify`. -/
abbrev Msg := List (String × Field)

/-- Property read on an outbound event. -/
def Msg.get (key : String) (msg : Msg) : Field :=
  match msg.lookup key with
  | some f => f
  | none => Field.val JsVal.undefined

/-! ## The registry and its effects -/

/-- An entry `{ ws, username }` of `wsClients`. -/
structure Client where
  ws : Conn
  username : JsVal
  deriving DecidableEq, Repr

/-- What a handler does to the outside world. -/
inductive Effect where
  | send (ws : Conn) (msg : Msg)
  | close (ws : Conn) (code : Nat) (reason : String)
  deriving DecidableEq, Repr

/-- Exceptions a listener can throw. -/
inductive JsError where
  | parseError
  | typeError
  deriving DecidableEq, Repr

/-- The array method `findIndex`, with `none` for `-1`. -/
def findIndex {α : Type} (p : α → Bool) : List α → Option Nat
  | [] => none
  | x :: xs => if p x then some 0 else (findIndex p xs).map (· + 1)

/-- The function `broadcast(msg)`: one `send` per entry of `wsClients`, in registry order. -/
def broadcast (wsClients : List Client) (msg : Msg) : List Effect :=
  wsClients.map (fun client => Effect.send client.ws msg)

/-- The expression `wsClients.map(c => c.username).filter(name => !!name)`. -/
def participantNames (wsClients : List Client) : List JsVal :=
  (wsClients.map (fun c => c.username)).filter (fun name => name.truthy)

/-- The object `{ type: 'participants', time, participants }`. -/
def participantsEvent (wsClients : List Client) (now : Nat) : Msg :=
  [("type", Field.val (JsVal.str "participants")),
   ("time", Field.val (JsVal.num (now : ℚ))),
   ("participants", Field.list (participantNames wsClients))]

/-- The function `broadcastParticipants()`. -/
def broadcastParticipants (wsClients : List Client) (now : Nat) : List Effect :=
  broadcast wsClients (participantsEvent wsClients now)

/-- The object `{ type: 'disconnected', time, author }`. -/
def disconnectedEvent (now : Nat) (username : JsVal) : Msg :=
  [("type", Field.val (JsVal.str "disconnected")),
   ("time", Field.val (JsVal.num (now : ℚ))),
   ("author", Field.val username)]

/-- The object `{ type: 'connected', time, author }`. -/
def connectedEvent (now : Nat) (author : JsVal) : Msg :=
  [("type", Field.val (JsVal.str "connected")),
   ("time", Field.val (JsVal.num (now : ℚ))),
   ("author", Field.val author)]

/-- The object `{ ...data, author: username }`. -/
def forwardEvent (data : Payload) (username : JsVal) : Msg :=
  (setProp "author" username (ownProps data)).map (fun kv => (kv.1, Field.val kv.2))

/-- The `close` listener of `clientWs`: new registry and effects. -/
def onClose (wsClients : List Client) (clientWs : Conn) (t1 t2 : Nat) :
    List Client × List Effect :=
  match findIndex (fun c => c.ws == clientWs) wsClients with
  | none => (wsClients, [])
  | some idx =>
    match wsClients.get? idx with
    | none => (wsClients, [])
    | some entry =>
      let username := entry.username
      let wsClients1 := wsClients.eraseIdx idx
      (wsClients1,
        broadcast wsClients1 (disconnectedEvent t1 username) ++
          broadcastParticipants wsClients1 t2)

/-- The `message` listener of `clientWs`. `parsed` is the outcome of `JSON.parse(msg)`. -/
def onMessage (wsClients : List Client) (clientWs : Conn) (parsed : Option Payload)
    (t1 t2 : Nat) : Except JsError (List Client × List Effect) :=
  match parsed with
  | none => .error JsError.parseError
  | some data =>
    match data.prop "type" with
    | none => .error JsError.typeError
    | some ty =>
      if ty = JsVal.str "register" then
        match data.prop "author" with
        | none => .error JsError.typeError
        | some author =>
          match wsClients.find? (fun c => c.username == author) with
          | some _ => .ok (wsClients, [Effect.close clientWs 4000 "Username already in use."])
          | none =>
            let wsClients1 := wsClients ++ [{ ws := clientWs, username := author }]
            .ok (wsClients1,
              broadcast wsClients1 (connectedEvent t1 author) ++
                broadcastParticipants wsClients1 t2)
      else
        match wsClients.find? (fun c => c.ws == clientWs) with
        | some client => .ok (wsClients, broadcast wsClients (forwardEvent data client.username))
        | none => .ok (wsClients, [])

/-! ## The relay as a transition system -/

/-- Events delivered by the websocket server. -/
inductive Event where
  | connect (ws : Conn)
  | message (ws : Conn) (parsed : Option Payload) (t1 t2 : Nat)
  | close (ws : Conn) (t1 t2 : Nat)
  deriving DecidableEq, Repr

/-- Program state: the array `wsClients`, together with the sockets on which the
callback of `app.ws` has installed its listeners and no `close` event has been delivered
yet (`attached`; the program itself keeps no such list, the server library does). -/
structure Relay where
  attached : List Conn
  wsClients : List Client
  deriving DecidableEq, Repr

/-- State at start-up. -/
def Relay.init : Relay := { attached := [], wsClients := [] }

/-- One event. A listener that throws does so at `JSON.parse(msg)` or at `data.type`,
before it has touched `wsClients` or sent anything; the state is left as it was (should the
exception end the process there is no later state at all). -/
def step (s : Relay) : Event → Relay × List Effect
  | .connect ws => ({ s with attached := s.attached ++ [ws] }, [])
  | .message ws parsed t1 t2 =>
    match onMessage s.wsClients ws parsed t1 t2 with
    | .ok (wsClients1, effects) => ({ s with wsClients := wsClients1 }, effects)
    | .error _ => (s, [])
  | .close ws t1 t2 =>
    let r := onClose s.wsClients ws t1 t2
    ({ attached := s.attached.filter (fun c => c != ws), wsClients := r.1 }, r.2)

/-- State after a sequence of events. -/
def run (s : Relay) (events : List Event) : Relay :=
  events.foldl (fun st e => (step st e).1) s

/-- States the program can be in. -/
def Reachable (s : Relay) : Prop := ∃ events, run Relay.init events = s

/-- Copies of `msg` that a list of effects sends on socket `ws`. -/
def copiesTo (ws : Conn) (msg : Msg) (effects : List Effect) : Nat :=
  effects.count (Effect.send ws msg)

/-- Everything a list of effects sends on socket `ws`, in order. -/
def sentTo (ws : Conn) (effects : List Effect) : List Msg :=
  effects.filterMap (fun e =>
    match e with
    | .send w msg => if w = ws then some msg else none
    | .close _ _ _ => none)

/-- A register frame `{"type":"register","author":name}`. -/
def registerFrame (name : String) : Option Payload :=
  some (Payload.obj [("type", JsVal.str "register"), ("author", JsVal.str name)])

/-- Whether `e`, handled in state `s`, is a register event carrying the name `n` that adds
an entry: a parsed frame whose `type` is `'register'` and whose `author` is `n`, for which
the handler makes the registry one entry longer. -/
def addsEntryFor (s : Relay) (e : Event) (n : JsVal) : Bool :=
  match e with
  | .message _ (some data) _ _ =>
    data.prop "type" == some (JsVal.str "register") && data.prop "author" == some n &&
      (step s e).1.wsClients.length == s.wsClients.length + 1
  | _ => false

/-- Number of events of a run from `s` that add an entry for the name `n`. -/
def admissionCount (n : JsVal) : Relay → List Event → Nat
  | _, [] => 0
  | s, e :: es => (if addsEntryFor s e n then 1 else 0) + admissionCount n (step s e).1 es

/-- An event that is a transport close. -/
def Event.isClose : Event → Bool
  | .close _ _ _ => true
  | _ => false

/-- The usernames of the registry, in order. -/
def usernames (wsClients : List Client) : List JsVal :=
  wsClients.map (fun c => c.username)

/-- Two payloads that differ only in the author field a client supplied: two objects with
the same keys in the same order whose values agree at every key other than `author`
(payloads that are not objects have no author field and must be equal). -/
def differOnlyInAuthor (d e : Payload) : Bool :=
  match d, e with
  | .obj p, .obj q =>
    p.map Prod.fst == q.map Prod.fst &&
      p.filter (fun kv => kv.1 != "author") == q.filter (fun kv => kv.1 != "author")
  | _, _ => d == e

/-! ## Auxiliary facts about the list primitives -/

theorem findIndex_spec {α : Type} (p : α → Bool) (l : List α) :
    match l.find? p with
    | none => findIndex p l = none
    | some e => ∃ i, findIndex p l = some i ∧ l.get? i = some e ∧ l.eraseIdx i = l.eraseP p := by
  induction l with
  | nil => simp [findIndex]
  | cons x xs ih =>
    by_cases hp : p x = true
    · simp [List.find?, hp, findIndex, List.eraseP]
    · have hp2 : p x = false := by simpa using hp
      simp only [List.find?, hp2, findIndex]
      cases hf : xs.find? p with
      | none =>
        rw [hf] at ih
        simp [ih]
      | some e =>
        rw [hf] at ih
        obtain ⟨i, h1, h2, h3⟩ := ih
        refine ⟨i + 1, ?_, ?_, ?_⟩
        · simp [h1]
        · simpa using h2
        · simp [List.eraseP, hp2, h3]

theorem find_split {α : Type} (p : α → Bool) (l : List α) (e : α) (h : l.find? p = some e) :
    ∃ l₁ l₂, (∀ b ∈ l₁, p b = false) ∧ p e = true ∧ l = l₁ ++ e :: l₂ ∧
      l.eraseP p = l₁ ++ l₂ := by
  induction l with
  | nil => simp at h
  | cons x xs ih =>
    by_cases hp : p x = true
    · simp [List.find?, hp] at h
      subst h
      exact ⟨[], xs, by simp, hp, by simp, by simp [List.eraseP, hp]⟩
    · have hp2 : p x = false := by simpa using hp
      simp only [List.find?, hp2] at h
      obtain ⟨l₁, l₂, h1, h2, h3, h4⟩ := ih h
      refine ⟨x :: l₁, l₂, ?_, h2, ?_, ?_⟩
      · intro b hb
        rcases List.mem_cons.mp hb with rfl | hb
        · exact hp2
        · exact h1 b hb
      · simp [h3]
      · simp [List.eraseP, hp2, h4]

/-- The close listener when the socket has no entry. -/
theorem onClose_of_find_none (wsClients : List Client) (c : Conn) (t1 t2 : Nat)
    (h : wsClients.find? (fun e => e.ws == c) = none) :
    onClose wsClients c t1 t2 = (wsClients, []) := by
  have hs := findIndex_spec (fun e : Client => e.ws == c) wsClients
  rw [h] at hs
  simp only at hs
  simp [onClose, hs]

/-- The close listener when the first entry of the socket is `entry`. -/
theorem onClose_of_find_some (wsClients : List Client) (c : Conn) (t1 t2 : Nat) (entry : Client)
    (h : wsClients.find? (fun e => e.ws == c) = some entry) :
    onClose wsClients c t1 t2 =
      (wsClients.eraseP (fun e => e.ws == c),
        broadcast (wsClients.eraseP (fun e => e.ws == c)) (disconnectedEvent t1 entry.username) ++
          broadcastParticipants (wsClients.eraseP (fun e => e.ws == c)) t2) := by
  have hs := findIndex_spec (fun e : Client => e.ws == c) wsClients
  rw [h] at hs
  obtain ⟨i, h1, h2, h3⟩ := hs
  have h2b : wsClients[i]? = some entry := by simpa using h2
  simp [onClose, h1, h2b, h3]

/-- The registry after a close is a sublist of the registry before. -/
theorem onClose_sublist (wsClients : List Client) (c : Conn) (t1 t2 : Nat) :
    (onClose wsClients c t1 t2).1.Sublist wsClients := by
  cases h : wsClients.find? (fun e => e.ws == c) with
  | none => rw [onClose_of_find_none _ _ _ _ h]
  | some entry =>
    rw [onClose_of_find_some _ _ _ _ _ h]
    exact List.eraseP_sublist _

/-- What the message listener can do to the registry: leave it, or append one entry
whose name no entry held. -/
theorem onMessage_registry (wsClients : List Client) (c : Conn) (parsed : Option Payload)
    (t1 t2 : Nat) (r : List Client × List Effect)
    (h : onMessage wsClients c parsed t1 t2 = .ok r) :
    r.1 = wsClients ∨
      ∃ n, (∀ e ∈ wsClients, e.username ≠ n) ∧ r.1 = wsClients ++ [{ ws := c, username := n }] ∧
        ∃ data, parsed = some data ∧ data.prop "type" = some (JsVal.str "register") ∧
          data.prop "author" = some n := by
  unfold onMessage at h
  split at h
  · simp at h
  · rename_i data
    split at h
    · simp at h
    · rename_i ty hty
      split at h
      · rename_i hreg
        split at h
        · simp at h
        · rename_i author hauthor
          split at h
          · simp only [Except.ok.injEq] at h
            left; rw [← h]
          · rename_i hfind
            simp only [Except.ok.injEq] at h
            right
            refine ⟨author, ?_, by rw [← h], data, rfl, by rw [hty, hreg], hauthor⟩
            intro e he heq
            have := List.find?_eq_none.mp hfind e he
            simp [heq] at this
      · split at h
        · simp only [Except.ok.injEq] at h
          left; rw [← h]
        · simp only [Except.ok.injEq] at h
          left; rw [← h]

/-- A register frame whose name some entry holds: the socket is closed, nothing else. -/
theorem onMessage_register_held (wsClients : List Client) (c : Conn) (data : Payload)
    (n : JsVal) (t1 t2 : Nat) (hty : data.prop "type" = some (JsVal.str "register"))
    (hn : data.prop "author" = some n) (held : ∃ e ∈ wsClients, e.username = n) :
    onMessage wsClients c (some data) t1 t2 =
      .ok (wsClients, [Effect.close c 4000 "Username already in use."]) := by
  obtain ⟨e, he, hen⟩ := held
  cases hf : wsClients.find? (fun x => x.username == n) with
  | none =>
    have := List.find?_eq_none.mp hf e he
    simp [hen] at this
  | some x => simp [onMessage, hty, hn, hf]

/-- A register frame whose name no entry holds: an entry is appended and the two
broadcasts go to the extended registry. -/
theorem onMessage_register_free (wsClients : List Client) (c : Conn) (data : Payload)
    (n : JsVal) (t1 t2 : Nat) (hty : data.prop "type" = some (JsVal.str "register"))
    (hn : data.prop "author" = some n) (free : ∀ e ∈ wsClients, e.username ≠ n) :
    onMessage wsClients c (some data) t1 t2 =
      .ok (wsClients ++ [{ ws := c, username := n }],
        broadcast (wsClients ++ [{ ws := c, username := n }]) (connectedEvent t1 n) ++
          broadcastParticipants (wsClients ++ [{ ws := c, username := n }]) t2) := by
  have hf : wsClients.find? (fun x => x.username == n) = none := by
    rw [List.find?_eq_none]
    intro e he
    simpa using free e he
  simp [onMessage, hty, hn, hf]

/-- Uniqueness of names is preserved by every event. -/
theorem step_nodup (s : Relay) (e : Event) (h : (usernames s.wsClients).Nodup) :
    (usernames (step s e).1.wsClients).Nodup := by
  cases e with
  | connect ws => exact h
  | message ws parsed t1 t2 =>
    simp only [step]
    cases hr : onMessage s.wsClients ws parsed t1 t2 with
    | error err => exact h
    | ok r =>
      obtain ⟨r1, r2⟩ := r
      rcases onMessage_registry _ _ _ _ _ _ hr with h1 | ⟨n, hfree, h1, _⟩
      · simp only at h1 ⊢
        rw [h1]; exact h
      · simp only at h1 ⊢
        rw [h1]
        simp only [usernames, List.map_append, List.map_cons, List.map_nil]
        rw [List.nodup_append]
        refine ⟨h, List.nodup_singleton _, ?_⟩
        intro a ha hb
        simp only [List.mem_singleton] at hb
        subst hb
        obtain ⟨x, hx, hxa⟩ := List.mem_map.mp ha
        exact hfree x hx hxa
  | close ws t1 t2 =>
    simp only [step]
    exact List.Nodup.sublist ((onClose_sublist s.wsClients ws t1 t2).map _) h

/-- Uniqueness of names holds along every run that starts in a state where it holds. -/
theorem run_nodup (events : List Event) (s : Relay) (h : (usernames s.wsClients).Nodup) :
    (usernames (run s events).wsClients).Nodup := by
  induction events generalizing s with
  | nil => exact h
  | cons e es ih => exact ih (step s e).1 (step_nodup s e h)

/-- Uniqueness of names in every reachable state. -/
theorem reachable_nodup (s : Relay) (h : Reachable s) : (usernames s.wsClients).Nodup := by
  obtain ⟨events, rfl⟩ := h
  exact run_nodup events Relay.init (by simp [Relay.init, usernames])

/-- An event that admits `n` finds the name free and leaves it held. -/
theorem addsEntryFor_spec (s : Relay) (e : Event) (n : JsVal) (h : addsEntryFor s e n = true) :
    n ∉ usernames s.wsClients ∧ n ∈ usernames (step s e).1.wsClients := by
  cases e with
  | connect ws => simp [addsEntryFor] at h
  | close ws t1 t2 => simp [addsEntryFor] at h
  | message ws parsed t1 t2 =>
    cases parsed with
    | none => simp [addsEntryFor] at h
    | some data =>
      simp only [addsEntryFor, Bool.and_eq_true, beq_iff_eq] at h
      obtain ⟨⟨hty, hn⟩, hlen⟩ := h
      by_cases held : ∃ x ∈ s.wsClients, x.username = n
      · simp [step, onMessage_register_held _ _ _ _ _ _ hty hn held] at hlen
      · have free : ∀ x ∈ s.wsClients, x.username ≠ n := fun x hx hxn => held ⟨x, hx, hxn⟩
        constructor
        · intro hmem
          obtain ⟨x, hx, hxn⟩ := List.mem_map.mp hmem
          exact free x hx hxn
        · simp [step, onMessage_register_free _ _ _ _ _ _ hty hn free, usernames]

/-- A name that is held stays held across every event that is not a close. -/
theorem held_mono (s : Relay) (e : Event) (n : JsVal) (hc : e.isClose = false)
    (h : n ∈ usernames s.wsClients) : n ∈ usernames (step s e).1.wsClients := by
  cases e with
  | connect ws => exact h
  | close ws t1 t2 => simp [Event.isClose] at hc
  | message ws parsed t1 t2 =>
    simp only [step]
    cases hr : onMessage s.wsClients ws parsed t1 t2 with
    | error err => exact h
    | ok r =>
      obtain ⟨r1, r2⟩ := r
      rcases onMessage_registry _ _ _ _ _ _ hr with h1 | ⟨m, _, h1, _⟩
      · simp only at h1 ⊢
        rw [h1]; exact h
      · simp only at h1 ⊢
        rw [h1]
        simp only [usernames, List.map_append, List.mem_append]
        exact Or.inl h

/-- Along a run without closes, a name is admitted at most once, and not at all when an
entry already holds it. -/
theorem admissionCount_le (n : JsVal) (events : List Event) (s : Relay)
    (hc : ∀ e ∈ events, e.isClose = false) :
    admissionCount n s events + (if n ∈ usernames s.wsClients then 1 else 0) ≤ 1 := by
  induction events generalizing s with
  | nil => simp only [admissionCount]; split <;> omega
  | cons e es ih =>
    have hce : e.isClose = false := hc e (List.mem_cons_self _ _)
    have ih2 := ih (step s e).1 (fun x hx => hc x (List.mem_cons_of_mem _ hx))
    simp only [admissionCount]
    by_cases ha : addsEntryFor s e n = true
    · obtain ⟨h1, h2⟩ := addsEntryFor_spec s e n ha
      simp only [ha, if_true, h1, if_false]
      simp only [h2, if_true] at ih2
      omega
    · have ha2 : addsEntryFor s e n = false := by simpa using ha
      simp only [ha2, Bool.false_eq_true, if_false]
      by_cases hm : n ∈ usernames s.wsClients
      · have := held_mono s e n hce hm
        simp only [this, if_true] at ih2
        simp only [hm, if_true]
        omega
      · simp only [hm, if_false]
        split at ih2 <;> simp <;> omega

/-! ## C1: uniqueness of names -/

/-- C1. Starting from the empty registry, after every finite sequence of connect, message
and close events no two entries of `wsClients` hold the same username; and from the state
so reached, along any further events none of which is a close, at most one register event
carrying a given name adds an entry. -/
theorem name_uniqueness (events : List Event) :
    (run Relay.init events).wsClients.Pairwise (fun a b => a.username ≠ b.username) ∧
      ∀ (n : JsVal) (more : List Event), (∀ e ∈ more, e.isClose = false) →
        admissionCount n (run Relay.init events) more ≤ 1 := by
  constructor
  · have h := run_nodup events Relay.init (by simp [Relay.init, usernames])
    exact (List.pairwise_map (l := (run Relay.init events).wsClients)).mp h
  · intro n more hc
    have := admissionCount_le n more (run Relay.init events) hc
    omega

/-- Witness for C1: three register frames for the name alice on three sockets, one admitted. -/
theorem name_uniqueness_witness :
    admissionCount (JsVal.str "alice") (run Relay.init [.connect 1, .connect 2, .connect 3])
        [.message 1 (registerFrame "alice") 10 11, .message 2 (registerFrame "alice") 12 13,
         .message 3 (registerFrame "alice") 14 15] ≤ 1 ∧
      admissionCount (JsVal.str "alice") (run Relay.init [.connect 1, .connect 2, .connect 3])
        [.message 1 (registerFrame "alice") 10 11, .message 2 (registerFrame "alice") 12 13,
         .message 3 (registerFrame "alice") 14 15] = 1 :=
  ⟨(name_uniqueness [.connect 1, .connect 2, .connect 3]).2 (JsVal.str "alice")
      [.message 1 (registerFrame "alice") 10 11, .message 2 (registerFrame "alice") 12 13,
       .message 3 (registerFrame "alice") 14 15] (by decide), by decide⟩

/-! ## C2: rejection of a taken name -/

/-- C2. A register frame with requested name `n` from socket `c` is rejected exactly when
some entry of `wsClients` has username `n`: in that case the only effect is closing `c`
with code 4000 and reason "Username already in use.", the registry is unchanged and nothing
is sent; otherwise an entry is appended and no socket is closed. -/
theorem register_rejected_iff (wsClients : List Client) (c : Conn) (data : Payload)
    (n : JsVal) (t1 t2 : Nat) (hty : data.prop "type" = some (JsVal.str "register"))
    (hn : data.prop "author" = some n) :
    (onMessage wsClients c (some data) t1 t2 =
        .ok (wsClients, [Effect.close c 4000 "Username already in use."]) ↔
      ∃ e ∈ wsClients, e.username = n) ∧
    ((¬ ∃ e ∈ wsClients, e.username = n) →
      ∃ effects, onMessage wsClients c (some data) t1 t2 =
          .ok (wsClients ++ [{ ws := c, username := n }], effects) ∧
        ∀ x ∈ effects, ∃ w msg, x = Effect.send w msg) := by
  have hfree : (¬ ∃ e ∈ wsClients, e.username = n) →
      ∃ effects, onMessage wsClients c (some data) t1 t2 =
          .ok (wsClients ++ [{ ws := c, username := n }], effects) ∧
        ∀ x ∈ effects, ∃ w msg, x = Effect.send w msg := by
    intro hno
    have free : ∀ e ∈ wsClients, e.username ≠ n := fun e he hen => hno ⟨e, he, hen⟩
    refine ⟨_, onMessage_register_free _ _ _ _ _ _ hty hn free, ?_⟩
    intro x hx
    simp only [broadcastParticipants, broadcast, List.mem_append, List.mem_map] at hx
    rcases hx with ⟨cl, _, rfl⟩ | ⟨cl, _, rfl⟩
    · exact ⟨_, _, rfl⟩
    · exact ⟨_, _, rfl⟩
  refine ⟨⟨?_, onMessage_register_held _ _ _ _ _ _ hty hn⟩, hfree⟩
  intro h
  by_contra hno
  obtain ⟨effects, heq, _⟩ := hfree hno
  rw [heq] at h
  simp only [Except.ok.injEq, Prod.mk.injEq] at h
  have := congrArg List.length h.1
  simp at this

/-- Witness for C2: a second socket asks for alice while the first holds it. -/
theorem register_rejected_iff_witness :
    onMessage [{ ws := 1, username := JsVal.str "alice" }] 2 (registerFrame "alice") 10 11 =
      .ok ([{ ws := 1, username := JsVal.str "alice" }],
        [Effect.close 2 4000 "Username already in use."]) :=
  (register_rejected_iff [{ ws := 1, username := JsVal.str "alice" }] 2
    (Payload.obj [("type", JsVal.str "register"), ("author", JsVal.str "alice")])
    (JsVal.str "alice") 10 11 (by decide) (by decide)).1.mpr
      ⟨{ ws := 1, username := JsVal.str "alice" }, by simp, rfl⟩

/-! ## Facts about effects and property lists -/

theorem sentTo_append (w : Conn) (xs ys : List Effect) :
    sentTo w (xs ++ ys) = sentTo w xs ++ sentTo w ys := by
  simp [sentTo, List.filterMap_append]

/-- A broadcast puts on socket `w` one copy of the event per entry that `w` has. -/
theorem sentTo_broadcast (w : Conn) (wsClients : List Client) (msg : Msg) :
    sentTo w (broadcast wsClients msg) =
      List.replicate (wsClients.countP (fun e => e.ws == w)) msg := by
  induction wsClients with
  | nil => simp [sentTo, broadcast]
  | cons x xs ih =>
    have ih2 : List.filterMap (fun e =>
        match e with
        | .send w1 m => if w1 = w then some m else none
        | .close _ _ _ => none) (List.map (fun client => Effect.send client.ws msg) xs) =
        List.replicate (xs.countP (fun e => e.ws == w)) msg := ih
    by_cases hx : x.ws = w
    · simp [sentTo, broadcast, List.countP_cons, hx, List.replicate_succ] at ih2 ⊢
      exact ih2
    · simp [sentTo, broadcast, List.countP_cons, hx] at ih2 ⊢
      exact ih2

theorem hasKey_cons {β : Type} (key a : String) (b : β) (xs : List (String × β)) :
    hasKey key ((a, b) :: xs) = (decide (a = key) || hasKey key xs) := by
  simp only [hasKey, List.any_cons]

theorem lookup_cons_pair {β : Type} (k a : String) (b : β) (xs : List (String × β)) :
    ((a, b) :: xs).lookup k = if k = a then some b else xs.lookup k := by
  by_cases h : k = a
  · subst h; simp [List.lookup]
  · have h2 : (k == a) = false := by simpa using h
    simp [List.lookup, h2, h]

theorem lookup_map_val {β γ : Type} (f : β → γ) (k : String) (l : List (String × β)) :
    (l.map (fun kv => (kv.1, f kv.2))).lookup k = (l.lookup k).map f := by
  induction l with
  | nil => rfl
  | cons x xs ih =>
    obtain ⟨a, b⟩ := x
    simp only [List.map_cons, lookup_cons_pair, ih]
    split <;> rfl

theorem lookup_map_overwrite {β : Type} (key k : String) (v : β) (l : List (String × β)) :
    (l.map (overwrite key v)).lookup k =
      if k = key then (if hasKey key l then some v else none) else l.lookup k := by
  induction l with
  | nil => simp [hasKey, List.lookup]
  | cons x xs ih =>
    obtain ⟨a, b⟩ := x
    by_cases ha : a = key
    · subst ha
      simp only [List.map_cons, overwrite, if_true, lookup_cons_pair, ih, hasKey_cons,
        decide_True, Bool.true_or]
      split <;> rfl
    · simp only [List.map_cons, overwrite, ha, if_false, lookup_cons_pair, ih, hasKey_cons,
        decide_False, Bool.false_or]
      by_cases hk : k = a
      · subst hk; simp [ha]
      · simp [hk]

theorem lookup_append_single {β : Type} (key k : String) (v : β) (l : List (String × β))
    (h : hasKey key l = false) :
    (l ++ [(key, v)]).lookup k = if k = key then some v else l.lookup k := by
  induction l with
  | nil =>
    show ([(key, v)] : List (String × β)).lookup k = _
    rw [lookup_cons_pair]
  | cons x xs ih =>
    obtain ⟨a, b⟩ := x
    simp only [hasKey_cons, Bool.or_eq_false_iff, decide_eq_false_iff_not] at h
    simp only [List.cons_append, lookup_cons_pair, ih h.2]
    by_cases hk : k = a
    · subst hk; simp [h.1]
    · simp [hk]

theorem lookup_setProp {β : Type} (key k : String) (v : β) (props : List (String × β)) :
    (setProp key v props).lookup k = if k = key then some v else props.lookup k := by
  unfold setProp
  by_cases h : hasKey key props = true
  · simp only [h, if_true, lookup_map_overwrite]
  · have h2 : hasKey key props = false := by simpa using h
    simp only [h2, Bool.false_eq_true, if_false, lookup_append_single _ _ _ _ h2]

theorem hasKey_eq_of_keys {β : Type} (key : String) (p q : List (String × β))
    (hk : p.map Prod.fst = q.map Prod.fst) : hasKey key p = hasKey key q := by
  have e : ∀ l : List (String × β),
      hasKey key l = (l.map Prod.fst).any (fun a => decide (a = key)) := by
    intro l
    induction l with
    | nil => rfl
    | cons x xs ih =>
      obtain ⟨a, b⟩ := x
      simp only [hasKey_cons, ih, List.map_cons, List.any_cons]
  rw [e p, e q, hk]

theorem filter_of_not_hasKey {β : Type} (key : String) (p : List (String × β))
    (h : hasKey key p = false) : p.filter (fun kv => kv.1 != key) = p := by
  induction p with
  | nil => rfl
  | cons x xs ih =>
    obtain ⟨a, b⟩ := x
    simp only [hasKey_cons, Bool.or_eq_false_iff, decide_eq_false_iff_not] at h
    have : (a != key) = true := by simpa using h.1
    simp [List.filter_cons, this, ih h.2]

theorem map_overwrite_eq {β : Type} (key : String) (v : β) (p q : List (String × β))
    (hk : p.map Prod.fst = q.map Prod.fst)
    (hf : p.filter (fun kv => kv.1 != key) = q.filter (fun kv => kv.1 != key)) :
    p.map (overwrite key v) = q.map (overwrite key v) := by
  induction p generalizing q with
  | nil =>
    cases q with
    | nil => rfl
    | cons y ys => simp at hk
  | cons x xs ih =>
    cases q with
    | nil => simp at hk
    | cons y ys =>
      obtain ⟨a, b⟩ := x
      obtain ⟨a2, b2⟩ := y
      simp only [List.map_cons, List.cons.injEq] at hk
      obtain ⟨ha, hk2⟩ := hk
      subst ha
      by_cases h : a = key
      · have h2 : (a != key) = false := by simpa using h
        simp only [List.filter_cons, h2, Bool.false_eq_true, if_false] at hf
        simp only [List.map_cons, overwrite, h, if_true, ih ys hk2 hf]
      · have h2 : (a != key) = true := by simpa using h
        simp only [List.filter_cons, h2, if_true, List.cons.injEq, Prod.mk.injEq, true_and] at hf
        simp only [List.map_cons, overwrite, h, if_false, ih ys hk2 hf.2, hf.1]

theorem setProp_eq_of_sameOff {β : Type} (key : String) (v : β) (p q : List (String × β))
    (hk : p.map Prod.fst = q.map Prod.fst)
    (hf : p.filter (fun kv => kv.1 != key) = q.filter (fun kv => kv.1 != key)) :
    setProp key v p = setProp key v q := by
  unfold setProp
  rw [← hasKey_eq_of_keys key p q hk]
  by_cases h : hasKey key p = true
  · simp only [h, if_true, map_overwrite_eq key v p q hk hf]
  · have h2 : hasKey key p = false := by simpa using h
    have h3 : hasKey key q = false := by rw [← hasKey_eq_of_keys key p q hk]; exact h2
    rw [filter_of_not_hasKey key p h2, filter_of_not_hasKey key q h3] at hf
    simp only [h2, Bool.false_eq_true, if_false, hf]

theorem lookup_filter_ne {β : Type} (key k : String) (p : List (String × β)) (hk : k ≠ key) :
    (p.filter (fun kv => kv.1 != key)).lookup k = p.lookup k := by
  induction p with
  | nil => rfl
  | cons x xs ih =>
    obtain ⟨a, b⟩ := x
    by_cases h : a = key
    · have h2 : (a != key) = false := by simpa using h
      have h3 : k ≠ a := by rw [h]; exact hk
      simp only [List.filter_cons, h2, Bool.false_eq_true, if_false, ih, lookup_cons_pair, h3]
    · have h2 : (a != key) = true := by simpa using h
      simp only [List.filter_cons, h2, if_true, lookup_cons_pair, ih]
/-- The forwarded event carries the name it was stamped with. -/
theorem forwardEvent_author (data : Payload) (u : JsVal) :
    Msg.get "author" (forwardEvent data u) = Field.val u := by
  simp [Msg.get, forwardEvent, lookup_map_val, lookup_setProp]

/-- Every other property of the forwarded event is the payload's own. -/
theorem forwardEvent_other (data : Payload) (u : JsVal) (k : String) (hk : k ≠ "author") :
    Msg.get k (forwardEvent data u) = Field.val (getProp k (ownProps data)) := by
  simp only [Msg.get, forwardEvent, lookup_map_val, lookup_setProp, hk, if_false, getProp]
  cases (ownProps data).lookup k <;> rfl

/-- Payloads that differ only in the supplied author have the same type and are forwarded
as the same event. -/
theorem differOnlyInAuthor_spec (d e : Payload) (h : differOnlyInAuthor d e = true) :
    d.prop "type" = e.prop "type" ∧ ∀ u, forwardEvent d u = forwardEvent e u := by
  cases d <;> cases e <;> simp [differOnlyInAuthor] at h <;>
    try (subst_vars; exact ⟨rfl, fun _ => rfl⟩)
  rename_i p q
  obtain ⟨hk, hf⟩ := h
  have hf2 : p.filter (fun kv => kv.1 != "author") = q.filter (fun kv => kv.1 != "author") := by
    simpa using hf
  constructor
  · have := lookup_filter_ne "author" "type" p (by decide)
    have := lookup_filter_ne "author" "type" q (by decide)
    simp_all [Payload.prop, getProp]
  · intro u
    simp only [forwardEvent, ownProps, setProp_eq_of_sameOff "author" u p q hk hf2]

/-! ## C3: who receives a broadcast -/

/-- C3, as stated, fails: socket 1 is attached and has not registered when socket 2
registers as bob; the registry then holds bob only, the two broadcasts of that registration
put nothing on socket 1, and a broadcast in the state reached sends socket 1 no copy. -/
theorem broadcast_skips_anonymous :
    run Relay.init [.connect 1, .connect 2, .message 2 (registerFrame "bob") 5 6] =
        { attached := [1, 2], wsClients := [{ ws := 2, username := JsVal.str "bob" }] } ∧
      sentTo 1 (step { attached := [1, 2], wsClients := [] }
        (.message 2 (registerFrame "bob") 5 6)).2 = [] ∧
      copiesTo 1 (connectedEvent 7 (JsVal.str "carol"))
        (broadcast [{ ws := 2, username := JsVal.str "bob" }]
          (connectedEvent 7 (JsVal.str "carol"))) = 0 := by
  refine ⟨by decide, by decide, by decide⟩

/-- C3, amended. For every registry and every event passed to `broadcast`: a socket with no
entry in `wsClients` (one that is attached but has not registered, among others) is sent
nothing, and a socket with exactly one entry is sent exactly one copy of the event. -/
theorem broadcast_registered_only (wsClients : List Client) (msg : Msg) (c : Conn) :
    ((∀ e ∈ wsClients, e.ws ≠ c) → sentTo c (broadcast wsClients msg) = []) ∧
      (wsClients.countP (fun e => e.ws == c) = 1 →
        sentTo c (broadcast wsClients msg) = [msg]) := by
  constructor
  · intro h
    have h0 : wsClients.countP (fun e => e.ws == c) = 0 := by
      rw [List.countP_eq_zero]
      intro e he
      simpa using h e he
    rw [sentTo_broadcast, h0]; rfl
  · intro h
    rw [sentTo_broadcast, h]; rfl

/-- Witness for C3: alice on socket 1 and bob on socket 2 are registered, socket 3 is not. -/
theorem broadcast_registered_only_witness :
    sentTo 3 (broadcast [{ ws := 1, username := JsVal.str "alice" },
        { ws := 2, username := JsVal.str "bob" }] (connectedEvent 7 (JsVal.str "bob"))) = [] ∧
      sentTo 1 (broadcast [{ ws := 1, username := JsVal.str "alice" },
        { ws := 2, username := JsVal.str "bob" }] (connectedEvent 7 (JsVal.str "bob"))) =
          [connectedEvent 7 (JsVal.str "bob")] :=
  ⟨(broadcast_registered_only [{ ws := 1, username := JsVal.str "alice" },
        { ws := 2, username := JsVal.str "bob" }] (connectedEvent 7 (JsVal.str "bob")) 3).1
      (by decide),
    (broadcast_registered_only [{ ws := 1, username := JsVal.str "alice" },
        { ws := 2, username := JsVal.str "bob" }] (connectedEvent 7 (JsVal.str "bob")) 1).2
      (by decide)⟩

/-! ## C4: the author of a forwarded message -/

/-- C4. For a sender with an entry in `wsClients` and every parsed payload whose type is
not `'register'`, whatever author the payload carries: the handler broadcasts one event
to the registry, the `author` of that event is the username of the sender's entry, and a
payload that differs only in the author the client supplied yields the same result.
(When one payload carries an author and the other none, the rest being equal, the two
events still have the same value at every property; the position of the `author` key
is then the payload's in one and the last in the other.) -/
theorem forward_author_is_registry_name (wsClients : List Client) (c : Conn) (client : Client)
    (data : Payload) (ty : JsVal) (t1 t2 : Nat)
    (hreg : wsClients.find? (fun e => e.ws == c) = some client)
    (hty : data.prop "type" = some ty) (hne : ty ≠ JsVal.str "register") :
    onMessage wsClients c (some data) t1 t2 =
        .ok (wsClients, broadcast wsClients (forwardEvent data client.username)) ∧
      Msg.get "author" (forwardEvent data client.username) = Field.val client.username ∧
      (∀ data2, differOnlyInAuthor data data2 = true →
        onMessage wsClients c (some data2) t1 t2 = onMessage wsClients c (some data) t1 t2) ∧
      ∀ q : List (String × JsVal),
        (ownProps data).filter (fun kv => kv.1 != "author") =
            q.filter (fun kv => kv.1 != "author") →
          ∀ k, Msg.get k (forwardEvent (Payload.obj q) client.username) =
            Msg.get k (forwardEvent data client.username) := by
  have main : ∀ d : Payload, d.prop "type" = some ty →
      onMessage wsClients c (some d) t1 t2 =
        .ok (wsClients, broadcast wsClients (forwardEvent d client.username)) := by
    intro d hd
    simp [onMessage, hd, hne, hreg]
  refine ⟨main data hty, forwardEvent_author _ _, ?_, ?_⟩
  · intro data2 hd
    obtain ⟨h1, h2⟩ := differOnlyInAuthor_spec data data2 hd
    rw [main data hty, main data2 (by rw [← h1]; exact hty), h2]
  · intro q hq k
    by_cases hk : k = "author"
    · subst hk
      rw [forwardEvent_author, forwardEvent_author]
    · rw [forwardEvent_other _ _ _ hk, forwardEvent_other _ _ _ hk]
      have e1 : (ownProps (Payload.obj q)).lookup k = (ownProps data).lookup k := by
        show q.lookup k = _
        rw [← lookup_filter_ne "author" k q hk, ← hq, lookup_filter_ne "author" k _ hk]
      simp only [getProp, e1]

/-- Witness for C4: alice sends a message that names mallory as its author. -/
theorem forward_author_is_registry_name_witness :
    onMessage [{ ws := 1, username := JsVal.str "alice" }] 1
        (some (Payload.obj [("type", JsVal.str "message"), ("author", JsVal.str "mallory"),
          ("text", JsVal.str "hi")])) 10 11 =
      .ok ([{ ws := 1, username := JsVal.str "alice" }],
        broadcast [{ ws := 1, username := JsVal.str "alice" }]
          (forwardEvent (Payload.obj [("type", JsVal.str "message"),
            ("author", JsVal.str "mallory"), ("text", JsVal.str "hi")]) (JsVal.str "alice"))) ∧
      forwardEvent (Payload.obj [("type", JsVal.str "message"),
            ("author", JsVal.str "mallory"), ("text", JsVal.str "hi")]) (JsVal.str "alice") =
        [("type", Field.val (JsVal.str "message")), ("author", Field.val (JsVal.str "alice")),
          ("text", Field.val (JsVal.str "hi"))] :=
  ⟨(forward_author_is_registry_name [{ ws := 1, username := JsVal.str "alice" }] 1
      { ws := 1, username := JsVal.str "alice" }
      (Payload.obj [("type", JsVal.str "message"), ("author", JsVal.str "mallory"),
          ("text", JsVal.str "hi")]) (JsVal.str "message") 10 11
      (by decide) (by decide) (by decide)).1, by decide⟩

/-! ## C5, C6: a socket that registers twice -/

/-- C5, the code at the failing input: socket 1 registers as alice and then as bob; the
second frame is neither rejected nor ignored, and socket 1 has two entries. -/
theorem second_register_adds_entry :
    (run Relay.init [.connect 1, .message 1 (registerFrame "alice") 10 11,
        .message 1 (registerFrame "bob") 12 13]).wsClients =
      [{ ws := 1, username := JsVal.str "alice" }, { ws := 1, username := JsVal.str "bob" }] := by
  decide

/-- C6, the code at the failing input: socket 1 registers as alice and as bob, socket 2
as carol, then socket 1 closes. The close listener removes the alice entry only; an entry
still refers to socket 1, and a second run of the listener for socket 1 removes that entry
and sends a disconnected and a participants event to socket 2. -/
theorem close_leaves_second_entry :
    (run Relay.init [.connect 1, .connect 2, .message 1 (registerFrame "alice") 10 11,
        .message 1 (registerFrame "bob") 12 13, .message 2 (registerFrame "carol") 14 15,
        .close 1 20 21]).wsClients =
      [{ ws := 1, username := JsVal.str "bob" }, { ws := 2, username := JsVal.str "carol" }] ∧
    onClose [{ ws := 1, username := JsVal.str "bob" }, { ws := 2, username := JsVal.str "carol" }]
        1 30 31 =
      ([{ ws := 2, username := JsVal.str "carol" }],
        [Effect.send 2 (disconnectedEvent 30 (JsVal.str "bob")),
         Effect.send 2 (participantsEvent [{ ws := 2, username := JsVal.str "carol" }] 31)]) := by
  refine ⟨by decide, by decide⟩

/-! ## C7, C8, C10: membership changes and the participants list -/

/-- The participants list holds exactly the truthy usernames of the registry. -/
theorem mem_participantNames (wsClients : List Client) (v : JsVal) :
    v ∈ participantNames wsClients ↔ v.truthy = true ∧ ∃ x ∈ wsClients, x.username = v := by
  simp only [participantNames, List.mem_filter, List.mem_map]
  tauto

/-- What two successive broadcasts to one registry put on a socket. -/
theorem sentTo_two_broadcasts (w : Conn) (wsClients : List Client) (m1 m2 : Msg) :
    sentTo w (broadcast wsClients m1 ++ broadcast wsClients m2) =
      List.replicate (wsClients.countP (fun e => e.ws == w)) m1 ++
        List.replicate (wsClients.countP (fun e => e.ws == w)) m2 := by
  rw [sentTo_append, sentTo_broadcast, sentTo_broadcast]

/-- The close listener at the entry it finds. In a reachable state, let `entry` be the
first entry of socket `c`, the one the listener finds. The listener removes that entry and
keeps the others in their order (`before ++ after`); its effects are a disconnected event
with that entry's name sent to every remaining entry, followed by a participants event sent
to every remaining entry; the participants list does not contain that name; each socket is
sent, per remaining entry it has, the disconnected event and after it the participants
event. Nothing is said here about a further entry of `c`, which stays in the registry. -/
theorem close_notifies_remaining (s : Relay) (hs : Reachable s) (c : Conn) (entry : Client)
    (t1 t2 : Nat) (hreg : s.wsClients.find? (fun e => e.ws == c) = some entry) :
    ∃ before after,
      s.wsClients = before ++ entry :: after ∧ (∀ e ∈ before, e.ws ≠ c) ∧ entry.ws = c ∧
      onClose s.wsClients c t1 t2 =
        (before ++ after,
          broadcast (before ++ after) (disconnectedEvent t1 entry.username) ++
            broadcast (before ++ after) (participantsEvent (before ++ after) t2)) ∧
      Msg.get "author" (disconnectedEvent t1 entry.username) = Field.val entry.username ∧
      Msg.get "participants" (participantsEvent (before ++ after) t2) =
        Field.list (participantNames (before ++ after)) ∧
      entry.username ∉ participantNames (before ++ after) ∧
      ∀ w, sentTo w (onClose s.wsClients c t1 t2).2 =
        List.replicate ((before ++ after).countP (fun e => e.ws == w))
            (disconnectedEvent t1 entry.username) ++
          List.replicate ((before ++ after).countP (fun e => e.ws == w))
            (participantsEvent (before ++ after) t2) := by
  obtain ⟨before, after, h1, h2, h3, h4⟩ := find_split _ _ _ hreg
  have hclose := onClose_of_find_some s.wsClients c t1 t2 entry hreg
  rw [h4] at hclose
  refine ⟨before, after, h3, ?_, by simpa using h2, hclose, ?_, ?_, ?_, ?_⟩
  · intro e he
    simpa using h1 e he
  · simp [Msg.get, disconnectedEvent, List.lookup]
  · simp [Msg.get, participantsEvent, List.lookup]
  · have hnd := reachable_nodup s hs
    rw [h3] at hnd
    simp only [usernames, List.map_append, List.map_cons] at hnd
    have hnd2 := List.nodup_middle.mp hnd
    rw [List.nodup_cons] at hnd2
    intro hmem
    obtain ⟨_, x, hx, hxn⟩ := (mem_participantNames _ _).mp hmem
    apply hnd2.1
    rw [← List.map_append]
    exact List.mem_map.mpr ⟨x, hx, hxn⟩
  · intro w
    rw [hclose]
    exact sentTo_two_broadcasts w _ _ _

/-- The close listener at a concrete state: alice (socket 1) and bob (socket 2) are
registered, socket 1 closes. -/
theorem close_notifies_remaining_witness :
    ∃ before after,
      [({ ws := 1, username := JsVal.str "alice" } : Client),
          { ws := 2, username := JsVal.str "bob" }] =
        before ++ { ws := 1, username := JsVal.str "alice" } :: after ∧
      onClose [{ ws := 1, username := JsVal.str "alice" },
          { ws := 2, username := JsVal.str "bob" }] 1 20 21 =
        (before ++ after,
          broadcast (before ++ after) (disconnectedEvent 20 (JsVal.str "alice")) ++
            broadcast (before ++ after) (participantsEvent (before ++ after) 21)) ∧
      JsVal.str "alice" ∉ participantNames (before ++ after) := by
  obtain ⟨b, a, h1, _, _, h4, _, _, h7, _⟩ :=
    close_notifies_remaining
      { attached := [1, 2],
        wsClients := [{ ws := 1, username := JsVal.str "alice" },
          { ws := 2, username := JsVal.str "bob" }] }
      ⟨[.connect 1, .connect 2, .message 1 (registerFrame "alice") 10 11,
        .message 2 (registerFrame "bob") 12 13], by decide⟩
      1 { ws := 1, username := JsVal.str "alice" } 20 21 (by decide)
  exact ⟨b, a, h1, h4, h7⟩

/-- C7, the code at the failing input: socket 1 registers as alice and then as bob,
socket 2 as carol, and the transport of socket 1 closes. The connection is registered under
bob as well, yet the listener removes the alice entry only: no disconnected event with
author bob is sent, the participants list sent afterwards is bob, carol and so still
contains bob, and the closed socket 1 is itself sent both events through its bob entry. -/
theorem close_keeps_other_name :
    (run Relay.init [.connect 1, .connect 2, .message 1 (registerFrame "alice") 10 11,
        .message 1 (registerFrame "bob") 12 13,
        .message 2 (registerFrame "carol") 14 15]).wsClients =
      [Client.mk 1 (JsVal.str "alice"), Client.mk 1 (JsVal.str "bob"),
        Client.mk 2 (JsVal.str "carol")] ∧
    onClose [Client.mk 1 (JsVal.str "alice"), Client.mk 1 (JsVal.str "bob"),
        Client.mk 2 (JsVal.str "carol")] 1 20 21 =
      ([Client.mk 1 (JsVal.str "bob"), Client.mk 2 (JsVal.str "carol")],
        [Effect.send 1 (disconnectedEvent 20 (JsVal.str "alice")),
         Effect.send 2 (disconnectedEvent 20 (JsVal.str "alice")),
         Effect.send 1 [("type", Field.val (JsVal.str "participants")),
           ("time", Field.val (JsVal.num 21)),
           ("participants", Field.list [JsVal.str "bob", JsVal.str "carol"])],
         Effect.send 2 [("type", Field.val (JsVal.str "participants")),
           ("time", Field.val (JsVal.num 21)),
           ("participants", Field.list [JsVal.str "bob", JsVal.str "carol"])]]) ∧
    JsVal.str "bob" ∈ participantNames
      [Client.mk 1 (JsVal.str "bob"), Client.mk 2 (JsVal.str "carol")] := by
  refine ⟨by decide, by decide, by decide⟩

/-- C8. A register frame from socket `c` with a name `n` that no entry holds appends the
entry `(c, n)` at the end of `wsClients`; the effects are a connected event with author
`n` sent to every entry of the extended registry, followed by a participants event sent to
every entry; each socket is sent, per entry it has, the connected event and after it the
participants event, and `c` has an entry; for a non-empty (truthy) `n` the participants
list contains `n`, and it is `[n]` when the registry was empty beforehand. -/
theorem register_announces (wsClients : List Client) (c : Conn) (data : Payload) (n : JsVal)
    (t1 t2 : Nat) (hty : data.prop "type" = some (JsVal.str "register"))
    (hn : data.prop "author" = some n) (free : ∀ e ∈ wsClients, e.username ≠ n) :
    onMessage wsClients c (some data) t1 t2 =
        .ok (wsClients ++ [Client.mk c n],
          broadcast (wsClients ++ [Client.mk c n]) (connectedEvent t1 n) ++
            broadcast (wsClients ++ [Client.mk c n])
              (participantsEvent (wsClients ++ [Client.mk c n]) t2)) ∧
      Msg.get "author" (connectedEvent t1 n) = Field.val n ∧
      Msg.get "participants" (participantsEvent (wsClients ++ [Client.mk c n]) t2) =
        Field.list (participantNames (wsClients ++ [Client.mk c n])) ∧
      (∀ w, sentTo w
          (broadcast (wsClients ++ [Client.mk c n]) (connectedEvent t1 n) ++
            broadcast (wsClients ++ [Client.mk c n])
              (participantsEvent (wsClients ++ [Client.mk c n]) t2)) =
        List.replicate ((wsClients ++ [Client.mk c n]).countP (fun e => e.ws == w))
            (connectedEvent t1 n) ++
          List.replicate
            ((wsClients ++ [Client.mk c n]).countP (fun e => e.ws == w))
            (participantsEvent (wsClients ++ [Client.mk c n]) t2)) ∧
      0 < (wsClients ++ [Client.mk c n]).countP (fun e => e.ws == c) ∧
      (n.truthy = true →
        n ∈ participantNames (wsClients ++ [Client.mk c n]) ∧
          (wsClients = [] →
            participantNames (wsClients ++ [Client.mk c n]) = [n])) := by
  refine ⟨onMessage_register_free _ _ _ _ _ _ hty hn free, ?_, ?_,
    fun w => sentTo_two_broadcasts w _ _ _, ?_, ?_⟩
  · simp [Msg.get, connectedEvent, List.lookup]
  · simp [Msg.get, participantsEvent, List.lookup]
  · rw [List.countP_append]
    simp
  · intro ht
    constructor
    · rw [mem_participantNames]
      exact ⟨ht, _, List.mem_append_right _ (List.mem_singleton_self _), rfl⟩
    · intro hempty
      subst hempty
      simp [participantNames, ht]

/-- Witness for C8: alice registers on socket 1 with an empty registry. -/
theorem register_announces_witness :
    onMessage [] 1 (registerFrame "alice") 10 11 =
      .ok ([{ ws := 1, username := JsVal.str "alice" }],
        [Effect.send 1 (connectedEvent 10 (JsVal.str "alice")),
         Effect.send 1 [("type", Field.val (JsVal.str "participants")),
           ("time", Field.val (JsVal.num 11)),
           ("participants", Field.list [JsVal.str "alice"])]]) := by
  have h := (register_announces [] 1
    (Payload.obj [("type", JsVal.str "register"), ("author", JsVal.str "alice")])
    (JsVal.str "alice") 10 11 (by decide) (by decide) (by simp)).1
  rw [show registerFrame "alice" = some (Payload.obj [("type", JsVal.str "register"),
    ("author", JsVal.str "alice")]) from rfl, h]
  rfl

/-! ## C9: payloads of unknown type -/

/-- C9, as stated, fails: alice is registered on socket 1 and sends a payload of the unknown
type ping, without text; it is not dropped but sent to her entry, stamped with her name. -/
theorem unknown_type_is_forwarded :
    onMessage [{ ws := 1, username := JsVal.str "alice" }] 1
        (some (Payload.obj [("type", JsVal.str "ping")])) 10 11 =
      .ok ([{ ws := 1, username := JsVal.str "alice" }],
        [Effect.send 1 [("type", Field.val (JsVal.str "ping")),
          ("author", Field.val (JsVal.str "alice"))]]) := by
  rfl

/-- C9, amended. For a sender with an entry in `wsClients` and every parsed payload other
than `null` whose type is not `'register'` (an unknown type, or a message without text,
included): `wsClients` is unchanged and the payload is forwarded, not dropped: every entry
is sent one event, the sender is among the receivers, and every property of that event
other than `author` is the payload's own. -/
theorem non_register_is_forwarded (wsClients : List Client) (c : Conn) (client : Client)
    (data : Payload) (ty : JsVal) (t1 t2 : Nat)
    (hreg : wsClients.find? (fun e => e.ws == c) = some client)
    (hty : data.prop "type" = some ty) (hne : ty ≠ JsVal.str "register") :
    ∃ effects, onMessage wsClients c (some data) t1 t2 = .ok (wsClients, effects) ∧
      effects = wsClients.map
        (fun e => Effect.send e.ws (forwardEvent data client.username)) ∧
      sentTo c effects ≠ [] ∧
      ∀ k, k ≠ "author" →
        Msg.get k (forwardEvent data client.username) = Field.val (getProp k (ownProps data)) := by
  refine ⟨broadcast wsClients (forwardEvent data client.username), ?_, rfl, ?_,
    fun k hk => forwardEvent_other data client.username k hk⟩
  · simp [onMessage, hty, hne, hreg]
  · rw [sentTo_broadcast]
    obtain ⟨l₁, l₂, _, hp, hsplit, _⟩ := find_split _ _ _ hreg
    have hmem : client ∈ wsClients := by rw [hsplit]; simp
    have hpos : 0 < wsClients.countP (fun e => e.ws == c) :=
      List.countP_pos_iff.mpr ⟨client, hmem, hp⟩
    intro h
    have := congrArg List.length h
    rw [List.length_replicate, List.length_nil] at this
    omega

/-- Witness for C9: alice, registered on socket 1, sends a message without text. -/
theorem non_register_is_forwarded_witness :
    ∃ effects, onMessage [{ ws := 1, username := JsVal.str "alice" }] 1
        (some (Payload.obj [("type", JsVal.str "message")])) 10 11 =
          .ok ([{ ws := 1, username := JsVal.str "alice" }], effects) ∧
      sentTo 1 effects ≠ [] := by
  obtain ⟨effects, h1, _, h3, _⟩ :=
    non_register_is_forwarded [{ ws := 1, username := JsVal.str "alice" }] 1
      { ws := 1, username := JsVal.str "alice" }
      (Payload.obj [("type", JsVal.str "message")]) (JsVal.str "message") 10 11
      (by decide) (by decide) (by decide)
  exact ⟨effects, h1, h3⟩

/-! ## C10: accuracy of the participants list -/

/-- C10, as stated, fails: a register frame with the empty name on an empty registry is
admitted; the registry then holds an entry named by the empty string, and the participants
event that follows carries the empty list. -/
theorem participants_omit_empty_name :
    onMessage [] 1 (registerFrame "") 10 11 =
        .ok ([{ ws := 1, username := JsVal.str "" }],
          [Effect.send 1 (connectedEvent 10 (JsVal.str "")),
           Effect.send 1 [("type", Field.val (JsVal.str "participants")),
             ("time", Field.val (JsVal.num 11)),
             ("participants", Field.list [])]]) ∧
      JsVal.str "" ∉ participantNames [{ ws := 1, username := JsVal.str "" }] := by
  refine ⟨rfl, by decide⟩

/-- C10, amended. Whenever an event changes `wsClients` (a register frame that is admitted,
a close that removes an entry), the effects end with a participants event sent to every
entry of the new registry, and the list it carries is the usernames of the new registry in
registry order with the falsy ones (empty string, absent, null, zero, false) left out:
every listed name is held by a current entry, and every truthy name held by a current
entry is listed. -/
theorem participants_accuracy (s : Relay) (e : Event)
    (hchg : (step s e).1.wsClients ≠ s.wsClients) :
    (∃ first t, (step s e).2 =
        broadcast (step s e).1.wsClients first ++
          broadcast (step s e).1.wsClients (participantsEvent (step s e).1.wsClients t) ∧
        Msg.get "participants" (participantsEvent (step s e).1.wsClients t) =
          Field.list (participantNames (step s e).1.wsClients)) ∧
      participantNames (step s e).1.wsClients =
        ((step s e).1.wsClients.map (fun x => x.username)).filter (fun v => v.truthy) ∧
      ∀ v, v ∈ participantNames (step s e).1.wsClients ↔
        (v.truthy = true ∧ ∃ x ∈ (step s e).1.wsClients, x.username = v) := by
  refine ⟨?_, rfl, fun v => mem_participantNames _ v⟩
  cases e with
  | connect ws => simp [step] at hchg
  | message ws parsed t1 t2 =>
    cases hr : onMessage s.wsClients ws parsed t1 t2 with
    | error err => simp [step, hr] at hchg
    | ok r =>
      obtain ⟨r1, r2⟩ := r
      rcases onMessage_registry _ _ _ _ _ _ hr with h1 | ⟨n, hfree, _, data, hp, hty, hn⟩
      · simp only at h1
        simp [step, hr, h1] at hchg
      · subst hp
        have hfull := onMessage_register_free s.wsClients ws data n t1 t2 hty hn hfree
        refine ⟨connectedEvent t1 n, t2, ?_, ?_⟩
        · simp only [step, hfull, broadcastParticipants]
        · simp [Msg.get, participantsEvent, List.lookup]
  | close ws t1 t2 =>
    cases hf : s.wsClients.find? (fun x => x.ws == ws) with
    | none => simp [step, onClose_of_find_none _ _ _ _ hf] at hchg
    | some entry =>
      refine ⟨disconnectedEvent t1 entry.username, t2, ?_, ?_⟩
      · simp only [step, onClose_of_find_some _ _ _ _ _ hf, broadcastParticipants]
      · simp [Msg.get, participantsEvent, List.lookup]

/-- Witness for C10: bob registers on socket 2 while alice holds socket 1. -/
theorem participants_accuracy_witness :
    participantNames (step (Relay.mk [1, 2] [Client.mk 1 (JsVal.str "alice")])
        (.message 2 (registerFrame "bob") 10 11)).1.wsClients =
      ((step (Relay.mk [1, 2] [Client.mk 1 (JsVal.str "alice")])
        (.message 2 (registerFrame "bob") 10 11)).1.wsClients.map
          (fun x => x.username)).filter (fun v => v.truthy) :=
  (participants_accuracy (Relay.mk [1, 2] [Client.mk 1 (JsVal.str "alice")])
    (.message 2 (registerFrame "bob") 10 11) (by decide)).2.1

end ReactChat
